import Mathlib

/-!
Shallow embedding of `async_queue/queues.py` (repository Moogsy/async_queue).

The queue state is the pair of `self.maxlen` and the contents of `self._deque`
(leftmost deque element = head of the list).  The cooperative scheduler is made
explicit: every `await asyncio.sleep(0)` suspension point consumes one step from
an environment schedule `Env α` — a list of functions describing how the other
tasks transform the buffer while the modelled call is suspended.  A call whose
schedule runs out before the call can finish is an incomplete call (`none`);
theorems about completed calls quantify over all schedules.

Each operation also returns, in order, the list of `dispatch_event` calls it
issued, so that event-dispatch behaviour is part of the observable result.
-/

namespace AsyncQueue

/-- Modelled from the spec: the `Events` enumeration imported by `queues.py`
from the repository's `events.py` (a file absent from the sources); the spec's
EventKind enumeration is `{Full, Empty}`. -/
inductive Events where
  | Full
  | Empty
deriving DecidableEq, Repr

/-- Errors surfaced by the operations: `asyncio.TimeoutError`, `errors.Full`,
`errors.Empty` and `ValueError` (invalid argument) from `queues.py`. -/
inductive QErr where
  | Timeout
  | Full
  | Empty
  | InvalidArgument
deriving DecidableEq, Repr

/-- Queue state: `self.maxlen` and `self._deque` from `QueueBase.__init__`.
The head of `buffer` is the leftmost deque element. -/
structure Queue (α : Type) where
  maxlen : Option Nat
  buffer : List α
deriving DecidableEq, Repr

/-- Environment schedule: one buffer transformation per suspension point,
modelling what the other cooperatively-scheduled tasks do while the call
being modelled is suspended at an `await asyncio.sleep(0)`. -/
abbrev Env (α : Type) := List (List α → List α)

/-- Normalisation of the `maxlen` argument in `QueueBase.__init__`:
`if isinstance(maxlen, int) and maxlen < 0: maxlen = None`. -/
def initMaxlen : Option Int → Option Nat
  | none => none
  | some m => if m < 0 then none else some m.toNat

/-- `collections.deque(iterable, maxlen=m)`: when the iterable is longer than
`m`, only the last `m` items are retained. -/
def dequeInit (xs : List α) : Option Nat → List α
  | none => xs
  | some m => xs.drop (xs.length - m)

/-- `QueueBase.__init__(iterable, maxlen=maxlen)`. -/
def mkQueue (xs : List α) (maxlen : Option Int) : Queue α :=
  let m := initMaxlen maxlen
  ⟨m, dequeInit xs m⟩

/-- `QueueBase.__len__`. -/
def Queue.len (q : Queue α) : Nat := q.buffer.length

/-- `QueueBase.__bool__`: `return self.__len__() == 0`. -/
def Queue.asBool (q : Queue α) : Bool := decide (q.buffer.length = 0)

/-- `QueueBase.is_empty`: `return self.__len__() == 0`. -/
def Queue.is_empty (q : Queue α) : Bool := decide (q.buffer.length = 0)

/-- `QueueBase.is_full`: `False` when `maxlen is None`, else
`self.__len__() >= self.maxlen`. -/
def Queue.is_full (q : Queue α) : Bool :=
  match q.maxlen with
  | none => false
  | some m => decide (m ≤ q.buffer.length)

/-- `QueueBase.has_enough_room_for(n)`: `True` when unbounded, else
`n <= maxlen - len(self._deque)` (Python integer subtraction, which may
be negative, hence the computation over `Int`). -/
def Queue.has_enough_room_for (q : Queue α) (n : Nat) : Bool :=
  match q.maxlen with
  | none => true
  | some m => decide ((n : Int) ≤ (m : Int) - (q.buffer.length : Int))

/-- `QueueBase.clear`: `self._deque.clear()`. -/
def Queue.clear (q : Queue α) : Queue α := ⟨q.maxlen, []⟩

/-- `deque.append` under an optional `maxlen`: when the deque is already at
`maxlen`, the leftmost element is silently discarded. -/
def dequeAppend (maxlen : Option Nat) (b : List α) (x : α) : List α :=
  match maxlen with
  | none => b ++ [x]
  | some m => (b ++ [x]).drop (b.length + 1 - m)

/-- `deque.extend` under an optional `maxlen`: element-by-element appends. -/
def dequeExtend (maxlen : Option Nat) (b : List α) (xs : List α) : List α :=
  xs.foldl (dequeAppend maxlen) b

/-- The removal-end choice made by the two subclasses: `AsyncQueue._get` is
`self._deque.popleft()` (FIFO) and `AsyncLifoQueue._get` is `self._deque.pop()`
(LIFO). -/
inductive Strategy where
  | fifo
  | lifo
deriving DecidableEq, Repr

/-- `self._get()`: `popleft` removes the head, `pop` removes the last element;
`none` is the `IndexError` raised on an empty deque. -/
def popItem : Strategy → List α → Option (α × List α)
  | .fifo, [] => none
  | .fifo, x :: xs => some (x, xs)
  | .lifo, b =>
    match b.getLast? with
    | none => none
    | some x => some (x, b.dropLast)

/-- A cooperative polling loop `while cond(buffer): await asyncio.sleep(0)`:
each iteration consumes one environment step; returns the buffer observed when
the loop exits, or `none` when the schedule ends before the loop does. -/
def pollWait (cond : List α → Bool) (env : Env α) (b : List α) : Option (List α) :=
  if cond b then
    match env with
    | [] => none
    | e :: rest => pollWait cond rest (e b)
  else some b

/-- The waiting loop of `QueueBase.put` with `timeout=None`:
`while self.is_full(): await asyncio.sleep(0)` on a bounded queue. -/
def putWait (m : Nat) : Env α → List α → Option (List α) :=
  pollWait (fun b => decide (m ≤ b.length))

/-- `QueueBase.put(item)` with `timeout=None`: wait while full (bounded case
only), append, and dispatch `Full` iff the queue is full after the append. -/
def putRun (env : Env α) (q : Queue α) (item : α) : Option (Queue α × List Events) :=
  match q.maxlen with
  | none =>
    some (⟨none, dequeAppend none q.buffer item⟩, [])
  | some m =>
    (putWait m env q.buffer).map (fun b1 =>
      let b' := dequeAppend (some m) b1 item
      (⟨some m, b'⟩, if m ≤ b'.length then [Events.Full] else []))

/-- `QueueBase.put(item, timeout)` with a timeout set.  The waiting loop's body
is `await self._check_expiry_date(started_at, timeout)`: awaiting a coroutine
that itself contains no `await` never yields to the event loop, so no other
task runs, the buffer cannot change while the loop spins, and a full queue's
`put` necessarily ends with `asyncio.TimeoutError` (raised before the item is
appended); a non-full queue's `put` appends at once. -/
def putTimeout (q : Queue α) (item : α) : Except QErr Unit × Queue α × List Events :=
  if q.is_full then (.error .Timeout, q, [])
  else
    let q' : Queue α := ⟨q.maxlen, dequeAppend q.maxlen q.buffer item⟩
    (.ok (), q', if q'.is_full then [Events.Full] else [])

/-- `QueueBase.put_nowait(item)`: raise `errors.Full` when full, else append and
dispatch `Full` iff the queue is full after the append. -/
def put_nowait (q : Queue α) (item : α) : Except QErr Unit × Queue α × List Events :=
  if q.is_full then (.error .Full, q, [])
  else
    let q' : Queue α := ⟨q.maxlen, dequeAppend q.maxlen q.buffer item⟩
    (.ok (), q', if q'.is_full then [Events.Full] else [])

/-- The waiting loop of the atomic branch of `QueueBase.puts`:
`while not self.has_enough_room_for(len(items)): await asyncio.sleep(0)`. -/
def putsAtomicWait (m : Nat) (n : Nat) : Env α → List α → Option (List α) :=
  pollWait (fun b => !decide ((n : Int) ≤ (m : Int) - (b.length : Int)))

/-- The incremental (`atomic=False`) loop of `QueueBase.puts` on a bounded
queue.  Per pass: `free_slots = self.maxlen - len(self._deque)` (never negative,
since the deque physically caps its length at `maxlen`, hence `Nat`
subtraction is exact), extend by `items[:free_slots]`, drop them from `items`;
if no items remain, return — note that this happens before the `is_full()`
check, so the final pass dispatches nothing; otherwise dispatch `Full` when
full and suspend (one environment step). -/
def putsIncr (m : Nat) (env : Env α) (b : List α) (items : List α)
    (evs : List Events) : Option (List α × List Events) :=
  let free := m - b.length
  let b' := dequeExtend (some m) b (items.take free)
  let remaining := items.drop free
  if remaining.isEmpty then some (b', evs)
  else
    let evs' := if m ≤ b'.length then evs ++ [Events.Full] else evs
    match env with
    | [] => none
    | e :: rest => putsIncr m rest (e b') remaining evs'

/-- `QueueBase.puts(*items, atomic=atomic)`: unbounded queues extend at once
(no dispatch); bounded atomic waits for room for the whole batch, extends, and
dispatches `Full` iff full afterwards; bounded incremental runs `putsIncr`. -/
def puts (env : Env α) (q : Queue α) (items : List α) (atomic : Bool) :
    Option (Queue α × List Events) :=
  match q.maxlen with
  | none => some (⟨none, dequeExtend none q.buffer items⟩, [])
  | some m =>
    if atomic then
      (putsAtomicWait m items.length env q.buffer).map (fun b1 =>
        let b' := dequeExtend (some m) b1 items
        (⟨some m, b'⟩, if m ≤ b'.length then [Events.Full] else []))
    else
      (putsIncr m env q.buffer items []).map (fun r => (⟨some m, r.1⟩, r.2))

/-- The waiting loop of `QueueBase.get` with `timeout=None`:
`while self.is_empty(): await asyncio.sleep(0)`. -/
def getWait : Env α → List α → Option (List α) :=
  pollWait (fun b => decide (b.length = 0))

/-- `QueueBase.get()` with `timeout=None`: wait while empty, dispatch `Empty`
when exactly one item is present (the removal will drain the queue), then
remove via `self._get()` (the `none` branch of `popItem` is unreachable, since
the wait loop only exits on a non-empty buffer). -/
def getRun (s : Strategy) (env : Env α) (q : Queue α) :
    Option (Except QErr α × Queue α × List Events) :=
  (getWait env q.buffer).map (fun b1 =>
    let evs := if b1.length = 1 then [Events.Empty] else []
    match popItem s b1 with
    | some (x, b') => (.ok x, ⟨q.maxlen, b'⟩, evs)
    | none => (.error .Empty, ⟨q.maxlen, b1⟩, evs))

/-- `QueueBase.get(timeout)` with a timeout set: as with `putTimeout`, the
waiting loop never yields to the event loop, so an empty queue's `get`
necessarily ends with `asyncio.TimeoutError`, removing nothing. -/
def getTimeout (s : Strategy) (q : Queue α) : Except QErr α × Queue α × List Events :=
  if q.is_empty then (.error .Timeout, q, [])
  else
    let evs := if q.buffer.length = 1 then [Events.Empty] else []
    match popItem s q.buffer with
    | some (x, b') => (.ok x, ⟨q.maxlen, b'⟩, evs)
    | none => (.error .Empty, q, evs)

/-- `QueueBase.get_nowait()`: dispatch `Empty` when exactly one item is present,
then `self._get()`; an empty deque's `IndexError` becomes `errors.Empty`. -/
def get_nowait (s : Strategy) (q : Queue α) : Except QErr α × Queue α × List Events :=
  let evs := if q.buffer.length = 1 then [Events.Empty] else []
  match popItem s q.buffer with
  | some (x, b') => (.ok x, ⟨q.maxlen, b'⟩, evs)
  | none => (.error .Empty, q, evs)

/-- The result of `QueueBase.gets`: the declared return type is `list`, but the
`atleast == 1` shortcut `return await self.get()` returns a bare item. -/
inductive GetsResult (α : Type) where
  | single (x : α)
  | batch (xs : List α)
deriving DecidableEq, Repr

/-- The draining loops of `QueueBase.gets`:
`while self._deque and len(out) < bound: out.append(self._get())`.
`fuel` is always instantiated with the buffer's length; since `self._get()`
removes exactly one element per iteration, the fuel never runs out before the
loop's own exit condition holds. -/
def drainLoop (s : Strategy) : Nat → Int → List α → List α → List α × List α
  | 0, _, b, out => (b, out)
  | fuel + 1, bound, b, out =>
    if b.isEmpty || bound ≤ (out.length : Int) then (b, out)
    else
      match popItem s b with
      | none => (b, out)
      | some (x, b') => drainLoop s fuel bound b' (out ++ [x])

/-- The waiting loop of the atomic branch of `QueueBase.gets`:
`while len(self._deque) < atleast: await asyncio.sleep(0)`. -/
def getsAtomicWait (atleast : Int) : Env α → List α → Option (List α) :=
  pollWait (fun b => decide ((b.length : Int) < atleast))

/-- The incremental (`atomic=False`) branch of `QueueBase.gets`: the outer loop
drains whatever is available up to `atleast` per pass, dispatches `Empty`
whenever the buffer is empty at the end of a pass (even a pass that removed
nothing), and suspends; once `atleast` items are collected it suspends once
more (`await asyncio.sleep(0)` after the loop), tops up to `atmost`, and
dispatches `Empty` again if the buffer is then empty. -/
def getsIncrLoop (s : Strategy) (atleast atmost : Int) (env : Env α) (b : List α)
    (out : List α) (evs : List Events) : Option (List α × List α × List Events) :=
  if (out.length : Int) < atleast then
    let r1 := drainLoop s b.length atleast b out
    let evs1 := if r1.1.isEmpty then evs ++ [Events.Empty] else evs
    match env with
    | [] => none
    | e :: rest => getsIncrLoop s atleast atmost rest (e r1.1) r1.2 evs1
  else
    match env with
    | [] => none
    | e :: _rest =>
      let b1 := e b
      let r2 := drainLoop s b1.length atmost b1 out
      let evs2 := if r2.1.isEmpty then evs ++ [Events.Empty] else evs
      some (r2.2, r2.1, evs2)

/-- `QueueBase.gets(atleast, atmost, atomic)`: validate (`atleast < 1` and
`atleast > atmost` raise `ValueError` before any suspension; an omitted
`atmost` defaults to `atleast`), shortcut `atleast == 1` to a plain `get()`
(whose bare item is wrapped in `GetsResult.single`), then run the atomic or
the incremental branch. -/
def gets (s : Strategy) (env : Env α) (q : Queue α) (atleast : Int)
    (atmost? : Option Int) (atomic : Bool) :
    Option (Except QErr (GetsResult α) × Queue α × List Events) :=
  if atleast < 1 then some (.error .InvalidArgument, q, [])
  else
    let atmost := atmost?.getD atleast
    if atmost < atleast then some (.error .InvalidArgument, q, [])
    else if atleast = 1 then
      (getRun s env q).map (fun r => (r.1.map GetsResult.single, r.2.1, r.2.2))
    else if atomic then
      (getsAtomicWait atleast env q.buffer).map (fun b1 =>
        let r := drainLoop s b1.length atmost b1 []
        (.ok (.batch r.2), ⟨q.maxlen, r.1⟩,
          if r.1.isEmpty then [Events.Empty] else []))
    else
      (getsIncrLoop s atleast atmost env q.buffer [] []).map (fun r =>
        (.ok (.batch r.1), ⟨q.maxlen, r.2.1⟩, r.2.2))

/-- State of an `asyncio` future: created pending; `set_result` makes it done;
`asyncio.wait_for`'s timeout path cancels it. -/
inductive FutureState where
  | pending
  | done
  | cancelled
deriving DecidableEq, Repr

/-- The event-listener registry `self._listeners` (a `defaultdict(list)` keyed
by event kind) together with the states of all futures ever created on the
loop, identified by creation index. -/
structure Broker where
  futures : List FutureState
  fullListeners : List Nat
  emptyListeners : List Nat
deriving DecidableEq, Repr

/-- The listener list of one event kind. -/
def Broker.listenersOf (b : Broker) : Events → List Nat
  | .Full => b.fullListeners
  | .Empty => b.emptyListeners

/-- `QueueBase.wait_for(event)`: create a fresh future, append it to
`self._listeners[event]`, and hand it to `asyncio.wait_for`.  Returns the new
broker state and the future's index. -/
def wait_for (b : Broker) (k : Events) : Broker × Nat :=
  let i := b.futures.length
  match k with
  | .Full => (⟨b.futures ++ [.pending], b.fullListeners ++ [i], b.emptyListeners⟩, i)
  | .Empty => (⟨b.futures ++ [.pending], b.fullListeners, b.emptyListeners ++ [i]⟩, i)

/-- The timeout path of `asyncio.wait_for(future, timeout)`: the future is
cancelled and `asyncio.TimeoutError` is raised to the caller.
`QueueBase.wait_for` does nothing further — in particular the future is not
removed from `self._listeners`. -/
def timeoutWaiter (b : Broker) (i : Nat) : Broker :=
  ⟨b.futures.set i .cancelled, b.fullListeners, b.emptyListeners⟩

/-- The loop of `QueueBase._dispatch_event`:
`for future in self._listeners[event]: future.set_result(None)`.
`Future.set_result` on a future that is not pending (already done, or
cancelled) raises `InvalidStateError`; the error value carries the future
states mutated so far. -/
def setResultAll : List Nat → List FutureState → Except (List FutureState) (List FutureState)
  | [], fs => .ok fs
  | i :: rest, fs =>
    match fs[i]? with
    | some .pending => setResultAll rest (fs.set i .done)
    | _ => .error fs

/-- `QueueBase._dispatch_event(event)`: complete every registered future, then
`self._listeners[event].clear()`.  When `set_result` raises part-way, the
exception propagates and the clear never runs. -/
def dispatch_event (b : Broker) (k : Events) : Except Broker Broker :=
  match setResultAll (b.listenersOf k) b.futures with
  | .ok fs =>
    match k with
    | .Full => .ok ⟨fs, [], b.emptyListeners⟩
    | .Empty => .ok ⟨fs, b.fullListeners, []⟩
  | .error fs => .error ⟨fs, b.fullListeners, b.emptyListeners⟩

/-- Sequencing of single-item `put()` calls (no timeout, no interleaving):
the puts-then-gets scenario's first phase. -/
def putSeq : Queue α → List α → Option (Queue α)
  | q, [] => some q
  | q, x :: xs =>
    match putRun [] q x with
    | none => none
    | some (q', _evs) => putSeq q' xs

/-- Sequencing of `n` single-item `get()` calls (no timeout, no interleaving):
the puts-then-gets scenario's second phase, collecting results in order. -/
def getSeq (s : Strategy) : Nat → Queue α → List α
  | 0, _ => []
  | n + 1, q =>
    match getRun s [] q with
    | none => []
    | some (r, q', _evs) =>
      match r with
      | .ok x => x :: getSeq s n q'
      | .error _ => []

/-- An environment schedule respects a bounded queue's capacity: every
transformation it performs keeps the buffer within `m` items (other tasks can
only mutate the buffer through the queue's own operations, which do). -/
def EnvPreserves (m : Nat) (env : Env α) : Prop :=
  ∀ e ∈ env, ∀ b : List α, b.length ≤ m → (e b).length ≤ m

theorem dequeAppend_length (m : Nat) (b : List α) (x : α) :
    (dequeAppend (some m) b x).length = min (b.length + 1) m := by
  simp [dequeAppend]
  omega

theorem dequeAppend_length_le (m : Nat) (b : List α) (x : α) :
    (dequeAppend (some m) b x).length ≤ m := by
  rw [dequeAppend_length]
  omega

theorem dequeExtend_cons (m : Option Nat) (b : List α) (x : α) (xs : List α) :
    dequeExtend m b (x :: xs) = dequeExtend m (dequeAppend m b x) xs := rfl

theorem dequeExtend_length_le {m : Nat} {b : List α} (xs : List α)
    (hb : b.length ≤ m) : (dequeExtend (some m) b xs).length ≤ m := by
  induction xs generalizing b with
  | nil => simpa [dequeExtend] using hb
  | cons x xs ih =>
    rw [dequeExtend_cons]
    exact ih (dequeAppend_length_le m b x)

theorem dequeExtend_length {m : Nat} {b : List α} (xs : List α) (hb : b.length ≤ m) :
    (dequeExtend (some m) b xs).length = min (b.length + xs.length) m := by
  induction xs generalizing b with
  | nil =>
    simp [dequeExtend]
    omega
  | cons x xs ih =>
    rw [dequeExtend_cons, ih (dequeAppend_length_le m b x), dequeAppend_length]
    simp only [List.length_cons]
    omega

theorem popItem_none {s : Strategy} {b : List α} (h : popItem s b = none) : b = [] := by
  cases s with
  | fifo =>
    cases b with
    | nil => rfl
    | cons x xs => simp [popItem] at h
  | lifo =>
    rw [popItem] at h
    cases hl : b.getLast? with
    | none => exact List.getLast?_eq_none_iff.mp hl
    | some x => rw [hl] at h; simp at h

theorem popItem_length {s : Strategy} {b b' : List α} {x : α}
    (h : popItem s b = some (x, b')) : b.length = b'.length + 1 := by
  cases s with
  | fifo =>
    cases b with
    | nil => simp [popItem] at h
    | cons y ys =>
      simp only [popItem, Option.some.injEq, Prod.mk.injEq] at h
      rw [← h.2]
      simp
  | lifo =>
    rw [popItem] at h
    cases hl : b.getLast? with
    | none => rw [hl] at h; simp at h
    | some z =>
      rw [hl] at h
      simp only [Option.some.injEq, Prod.mk.injEq] at h
      have hne : b ≠ [] := by
        intro hb
        rw [hb] at hl
        simp at hl
      have : 1 ≤ b.length := List.length_pos.mpr hne
      rw [← h.2, List.length_dropLast]
      omega

theorem pollWait_some {cond : List α → Bool} (P : List α → Prop) {env : Env α} {b b1 : List α}
    (hP : ∀ e ∈ env, ∀ c : List α, P c → P (e c)) (hb : P b)
    (h : pollWait cond env b = some b1) : P b1 ∧ cond b1 = false := by
  induction env generalizing b with
  | nil =>
    rw [pollWait] at h
    by_cases hc : cond b
    · simp [hc] at h
    · rw [if_neg hc] at h
      injection h with h
      subst h
      exact ⟨hb, Bool.eq_false_iff.mpr hc⟩
  | cons e rest ih =>
    rw [pollWait] at h
    by_cases hc : cond b
    · rw [if_pos hc] at h
      exact ih (fun f hf => hP f (List.mem_cons_of_mem e hf))
        (hP e (List.mem_cons_self e rest) b hb) h
    · rw [if_neg hc] at h
      injection h with h
      subst h
      exact ⟨hb, Bool.eq_false_iff.mpr hc⟩

theorem drainLoop_fst_length_le (s : Strategy) (bound : Int) :
    ∀ (fuel : Nat) (b out : List α), (drainLoop s fuel bound b out).1.length ≤ b.length := by
  intro fuel
  induction fuel with
  | zero => intro b out; exact le_refl _
  | succ n ih =>
    intro b out
    rw [drainLoop]
    by_cases hc : (b.isEmpty || decide (bound ≤ (out.length : Int))) = true
    · rw [if_pos hc]
    · rw [if_neg hc]
      cases hp : popItem s b with
      | none => exact le_refl _
      | some r =>
        obtain ⟨x, b2⟩ := r
        have := popItem_length hp
        calc (drainLoop s n bound b2 (out ++ [x])).1.length
            ≤ b2.length := ih b2 (out ++ [x])
          _ ≤ b.length := by omega

/-- Claim C9: for every queue state, the boolean conversion of the queue
(`QueueBase.__bool__`, i.e. `len(self) == 0`) is `True` if and only if the
queue is empty — the inverse of the usual container convention. -/
theorem bool_conversion_true_iff_empty {α : Type} (q : Queue α) :
    q.asBool = true ↔ q.buffer = [] := by
  simp [Queue.asBool, List.length_eq_zero]

/-- Claim C10: constructing a queue from an iterable longer than a
non-negative capacity silently retains only the last `capacity` items, and a
negative capacity yields an unbounded queue holding the whole iterable. -/
theorem init_truncates_and_negative_maxlen_unbounded {α : Type} (xs : List α) (m : Int) :
    (0 ≤ m → m.toNat < xs.length →
      (mkQueue xs (some m)).maxlen = some m.toNat ∧
      (mkQueue xs (some m)).buffer = xs.drop (xs.length - m.toNat) ∧
      (mkQueue xs (some m)).buffer.length = m.toNat) ∧
    (m < 0 → mkQueue xs (some m) = ⟨none, xs⟩) := by
  constructor
  · intro h0 hlt
    have hm : ¬ m < 0 := not_lt.mpr h0
    refine ⟨by simp [mkQueue, initMaxlen, hm], by simp [mkQueue, initMaxlen, dequeInit, hm], ?_⟩
    simp only [mkQueue, initMaxlen, hm, if_false, dequeInit, List.length_drop]
    omega
  · intro hm
    simp [mkQueue, initMaxlen, hm, dequeInit]

/-- Witness for claim C10 at a concrete input: `deque([1,2,3], maxlen=2)` keeps
`[2, 3]`, and `maxlen=-1` is normalised to "unbounded". -/
theorem init_truncates_witness :
    ((0 : Int) ≤ 2 ∧ (2 : Int).toNat < [1, 2, 3].length ∧
      (mkQueue [1, 2, 3] (some 2)).maxlen = some (2 : Int).toNat ∧
      (mkQueue [1, 2, 3] (some 2)).buffer = [1, 2, 3].drop ([1, 2, 3].length - (2 : Int).toNat)) ∧
    ((-1 : Int) < 0 ∧ mkQueue [1, 2, 3] (some (-1)) = (⟨none, [1, 2, 3]⟩ : Queue Nat)) := by
  refine ⟨⟨by decide, by decide, ?_, ?_⟩, by decide, ?_⟩
  · exact ((init_truncates_and_negative_maxlen_unbounded [1, 2, 3] 2).1 (by decide) (by decide)).1
  · exact ((init_truncates_and_negative_maxlen_unbounded [1, 2, 3] 2).1 (by decide) (by decide)).2.1
  · exact (init_truncates_and_negative_maxlen_unbounded [1, 2, 3] (-1)).2 (by decide)

/-- Claim C3, evaluation at the failing input: `gets(atleast=1, atmost=3)` on a
FIFO queue holding `[10, 20, 30]` takes the `atleast == 1` shortcut
`return await self.get()` and yields the bare item `10` — not a list, with
`atmost` ignored and `[20, 30]` left behind — contradicting the method's
`-> list` annotation and its docstring ("Will always try to fetch `atmost`
items if enough are directly available"). -/
theorem gets_atleast_one_returns_bare_item :
    gets .fifo ([] : Env Nat) ⟨none, [10, 20, 30]⟩ 1 (some 3) false
      = some (.ok (.single 10), ⟨none, [20, 30]⟩, []) := rfl

/-- Claim C1, counterexample: the final pass of an incremental `puts` returns
before the `is_full()` check, so a completed `puts` on a bounded queue whose
single (hence final) pass fills the buffer to capacity dispatches no `Full`
event at all, although the claim demands exactly one dispatch for that pass. -/
theorem puts_final_pass_misses_full_event :
    puts ([] : Env Nat) ⟨some 2, []⟩ [10, 20] false
        = some (⟨some 2, [10, 20]⟩, ([] : List Events))
      ∧ (⟨some 2, [10, 20]⟩ : Queue Nat).is_full = true := ⟨rfl, rfl⟩

/-- Claim C2, counterexample: an incremental `gets(atleast=2)` that starts on
an empty queue dispatches `Empty` at the end of its first (fruitless) waiting
pass, again when its second pass drains the two freshly produced items, and a
third time after the final top-up — three dispatches for a single transition
to size 0, and one of them while waiting on an already-empty queue. -/
theorem gets_dispatches_empty_while_waiting :
    gets .fifo [fun b => b ++ [10, 20], fun b => b, fun b => b]
        (⟨none, []⟩ : Queue Nat) 2 none false
      = some (.ok (.batch [10, 20]), ⟨none, []⟩,
          [Events.Empty, Events.Empty, Events.Empty]) := rfl

/-- Claim C4, counterexample: after `wait_for(Full)` times out, the cancelled
future is still in `self._listeners[Full]` (the registry is never pruned), and
a later `_dispatch_event(Full)` iterates over it and raises
`InvalidStateError` from `set_result` — the timed-out waiter is acted on. -/
theorem timed_out_waiter_stays_registered :
    wait_for ⟨[], [], []⟩ Events.Full = (⟨[.pending], [0], []⟩, 0)
      ∧ timeoutWaiter ⟨[.pending], [0], []⟩ 0 = ⟨[.cancelled], [0], []⟩
      ∧ 0 ∈ (Broker.mk [.cancelled] [0] []).fullListeners
      ∧ dispatch_event ⟨[.cancelled], [0], []⟩ Events.Full
          = .error ⟨[.cancelled], [0], []⟩ := by
  refine ⟨rfl, rfl, ?_, rfl⟩
  simp [Broker.mk]

/-- Claim C5: a `put(item, timeout)` or `get(timeout)` call that fails with
`Timeout` leaves the buffer exactly as it was before the call began — the
`raise` happens inside the waiting loop, before any append or removal (and,
the waiting loop never yielding to the event loop, nothing else can run
meanwhile either) — and no event is dispatched. -/
theorem timeout_leaves_buffer_unchanged {α : Type} :
    (∀ (q : Queue α) (item : α) (e : QErr), (putTimeout q item).1 = .error e →
      (putTimeout q item).2.1 = q ∧ (putTimeout q item).2.2 = []) ∧
    (∀ (s : Strategy) (q : Queue α) (e : QErr), (getTimeout s q).1 = .error e →
      (getTimeout s q).2.1 = q ∧ (getTimeout s q).2.2 = []) := by
  constructor
  · intro q item e h
    by_cases hf : q.is_full = true
    · simp [putTimeout, hf]
    · simp [putTimeout, hf] at h
  · intro s q e h
    by_cases he : q.is_empty = true
    · simp [getTimeout, he]
    · rw [getTimeout, if_neg he] at h ⊢
      cases hp : popItem s q.buffer with
      | none =>
        have : q.buffer = [] := popItem_none hp
        rw [Queue.is_empty, this] at he
        simp at he
      | some r => rw [hp] at h; simp at h

/-- Witness for claim C5: a `put` on a full one-slot queue and a `get` on an
empty queue, both with a timeout, time out leaving the buffer untouched. -/
theorem timeout_leaves_buffer_unchanged_witness :
    ((putTimeout (⟨some 1, [5]⟩ : Queue Nat) 7).1 = .error QErr.Timeout ∧
      (putTimeout (⟨some 1, [5]⟩ : Queue Nat) 7).2.1 = ⟨some 1, [5]⟩ ∧
      (putTimeout (⟨some 1, [5]⟩ : Queue Nat) 7).2.2 = []) ∧
    ((getTimeout .fifo (⟨some 1, []⟩ : Queue Nat)).1 = .error QErr.Timeout ∧
      (getTimeout .fifo (⟨some 1, []⟩ : Queue Nat)).2.1 = ⟨some 1, []⟩ ∧
      (getTimeout .fifo (⟨some 1, []⟩ : Queue Nat)).2.2 = []) := by
  refine ⟨⟨rfl, ?_, ?_⟩, rfl, ?_, ?_⟩
  · exact ((timeout_leaves_buffer_unchanged.1 ⟨some 1, [5]⟩ 7 QErr.Timeout) rfl).1
  · exact ((timeout_leaves_buffer_unchanged.1 ⟨some 1, [5]⟩ 7 QErr.Timeout) rfl).2
  · exact ((timeout_leaves_buffer_unchanged.2 .fifo ⟨some 1, []⟩ QErr.Timeout) rfl).1
  · exact ((timeout_leaves_buffer_unchanged.2 .fifo ⟨some 1, []⟩ QErr.Timeout) rfl).2

/-- Claim C6: `gets` fails with `ValueError` when `atleast < 1`, or when
`atmost` is given and `atleast > atmost` — in each case before any suspension
(the result does not depend on the schedule) and with the buffer untouched —
and an omitted `atmost` defaults to `atleast`. -/
theorem gets_argument_validation {α : Type} :
    (∀ (s : Strategy) (env : Env α) (q : Queue α) (al : Int) (am? : Option Int) (atm : Bool),
      al < 1 → gets s env q al am? atm = some (.error .InvalidArgument, q, [])) ∧
    (∀ (s : Strategy) (env : Env α) (q : Queue α) (al am : Int) (atm : Bool),
      am < al → gets s env q al (some am) atm = some (.error .InvalidArgument, q, [])) ∧
    (∀ (s : Strategy) (env : Env α) (q : Queue α) (al : Int) (atm : Bool),
      gets s env q al none atm = gets s env q al (some al) atm) := by
  refine ⟨?_, ?_, ?_⟩
  · intro s env q al am? atm h
    simp [gets, h]
  · intro s env q al am atm h
    by_cases h1 : al < 1
    · simp [gets, h1]
    · simp [gets, h1, Option.getD, h]
  · intro s env q al atm
    rfl

/-- Witness for claim C6: `gets(atleast=0)` and `gets(atleast=5, atmost=3)`
both fail with `InvalidArgument`, leaving the buffer `[1, 2]` untouched. -/
theorem gets_argument_validation_witness :
    ((0 : Int) < 1 ∧ gets .fifo ([] : Env Nat) ⟨none, [1, 2]⟩ 0 none false
        = some (.error .InvalidArgument, ⟨none, [1, 2]⟩, [])) ∧
    ((3 : Int) < 5 ∧ gets .fifo ([] : Env Nat) ⟨none, [1, 2]⟩ 5 (some 3) true
        = some (.error .InvalidArgument, ⟨none, [1, 2]⟩, [])) := by
  refine ⟨⟨by decide, ?_⟩, by decide, ?_⟩
  · exact gets_argument_validation.1 .fifo [] ⟨none, [1, 2]⟩ 0 none false (by decide)
  · exact gets_argument_validation.2.1 .fifo [] ⟨none, [1, 2]⟩ 5 3 true (by decide)

theorem putSeq_unbounded (xs : List α) : ∀ b : List α,
    putSeq ⟨none, b⟩ xs = some ⟨none, b ++ xs⟩ := by
  induction xs with
  | nil => intro b; simp [putSeq]
  | cons x xs ih =>
    intro b
    have hstep : putSeq (⟨none, b⟩ : Queue α) (x :: xs)
        = putSeq ⟨none, b ++ [x]⟩ xs := rfl
    rw [hstep, ih (b ++ [x]), List.append_assoc]
    rfl

theorem getSeq_fifo (n : Nat) : ∀ b : List α,
    getSeq .fifo n ⟨none, b⟩ = b.take n := by
  induction n with
  | zero => intro b; rfl
  | succ n ih =>
    intro b
    cases b with
    | nil => rfl
    | cons h t =>
      have hstep : getSeq .fifo (n + 1) (⟨none, h :: t⟩ : Queue α)
          = h :: getSeq .fifo n ⟨none, t⟩ := rfl
      rw [hstep, ih t]
      rfl

theorem getSeq_lifo (n : Nat) : ∀ b : List α,
    getSeq .lifo n ⟨none, b⟩ = b.reverse.take n := by
  induction n with
  | zero => intro b; rfl
  | succ n ih =>
    intro b
    rcases List.eq_nil_or_concat b with rfl | ⟨l, a, rfl⟩
    · rfl
    · rw [List.concat_eq_append]
      have hwait : getWait ([] : Env α) (l ++ [a]) = some (l ++ [a]) := by
        rw [getWait, pollWait]
        simp
      have hpop : popItem .lifo (l ++ [a]) = some (a, l) := by
        rw [popItem, List.getLast?_concat]
        simp
      have hstep : getSeq .lifo (n + 1) (⟨none, l ++ [a]⟩ : Queue α)
          = a :: getSeq .lifo n ⟨none, l⟩ := by
        rw [getSeq, getRun, hwait]
        simp only [Option.map_some']
        rw [hpop]
      rw [hstep, ih l]
      simp

/-- Claim C8: for every sequence of `put` calls followed by `get` calls with no
interleaving, starting from an empty unbounded queue, the FIFO subclass
(`AsyncQueue`, `_get` = `popleft`) returns the items in insertion order, and
the LIFO subclass (`AsyncLifoQueue`, `_get` = `pop`) returns them in reverse
insertion order. -/
theorem fifo_returns_in_order_lifo_reversed {α : Type} (xs : List α) :
    putSeq ⟨none, []⟩ xs = some ⟨none, xs⟩
      ∧ getSeq .fifo xs.length ⟨none, xs⟩ = xs
      ∧ getSeq .lifo xs.length ⟨none, xs⟩ = xs.reverse := by
  refine ⟨by simpa using putSeq_unbounded xs [], ?_, ?_⟩
  · rw [getSeq_fifo, List.take_length]
  · rw [getSeq_lifo, ← List.length_reverse, List.take_length]

theorem putsIncr_pass_full {m : Nat} {b items : List α}
    (h : items.drop (m - b.length) ≠ []) :
    m ≤ (dequeExtend (some m) b (items.take (m - b.length))).length := by
  by_cases hbm : m ≤ b.length
  · have h0 : m - b.length = 0 := Nat.sub_eq_zero_of_le hbm
    rw [h0]
    simpa [dequeExtend] using hbm
  · push_neg at hbm
    have hlen : m - b.length ≤ items.length := by
      by_contra hc
      push_neg at hc
      exact h (List.drop_eq_nil_of_le (Nat.le_of_lt hc))
    have h2 := dequeExtend_length
      (items.take (m - b.length)) (Nat.le_of_lt hbm)
    rw [List.length_take] at h2
    rw [h2]
    omega

theorem putsIncr_final_pass {m : Nat} (env : Env α) (b items : List α)
    (evs : List Events) (h : items.drop (m - b.length) = []) :
    putsIncr m env b items evs = some (dequeExtend (some m) b items, evs) := by
  have htake : items.take (m - b.length) = items :=
    List.take_of_length_le (List.drop_eq_nil_iff.mp h)
  rw [putsIncr, h, htake]
  simp

theorem putsIncr_full_events {m : Nat} : ∀ {env : Env α} {b items : List α}
    {evs : List Events} {r : List α × List Events},
    putsIncr m env b items evs = some r →
    ∃ k, k ≤ env.length ∧ r.2 = evs ++ List.replicate k Events.Full := by
  intro env
  induction env with
  | nil =>
    intro b items evs r h
    rw [putsIncr] at h
    by_cases hr : (items.drop (m - b.length)).isEmpty = true
    · rw [if_pos hr] at h
      injection h with h
      rw [← h]
      exact ⟨0, Nat.le_refl 0, by simp⟩
    · rw [if_neg hr] at h
      simp at h
  | cons e rest ih =>
    intro b items evs r h
    rw [putsIncr] at h
    by_cases hr : (items.drop (m - b.length)).isEmpty = true
    · rw [if_pos hr] at h
      injection h with h
      rw [← h]
      exact ⟨0, Nat.zero_le _, by simp⟩
    · rw [if_neg hr] at h
      have hfull : m ≤ (dequeExtend (some m) b (items.take (m - b.length))).length :=
        putsIncr_pass_full (by simpa [List.isEmpty_iff] using hr)
      rw [if_pos hfull] at h
      obtain ⟨k, hk, hevs⟩ := ih h
      refine ⟨k + 1, by simpa using Nat.succ_le_succ hk, ?_⟩
      rw [hevs, List.append_assoc]
      simp [List.replicate_succ]

/-- Claim C1, amended: `put` (with or without a timeout, on success),
`putNoWait` (on success) and atomic `puts` dispatch `Full` exactly once if and
only if the operation leaves the buffer at capacity.  Incremental `puts`
behaves differently: a completed final pass never dispatches `Full` — even
when its insertion brings the buffer to capacity — while each non-final pass
ends with the buffer at capacity and dispatches `Full` exactly once (even a
pass that inserted nothing because the buffer was already full), so a
completed incremental `puts` dispatches exactly one `Full` per suspension
pass, `k` dispatches for some `k` bounded by the number of passes. -/
theorem full_event_dispatch_characterization {α : Type} :
    (∀ (env : Env α) (q : Queue α) (item : α) (r : Queue α × List Events),
        putRun env q item = some r →
        r.2 = if r.1.is_full = true then [Events.Full] else []) ∧
    (∀ (q : Queue α) (item : α), (putTimeout q item).1 = .ok () →
        (putTimeout q item).2.2
          = if (putTimeout q item).2.1.is_full = true then [Events.Full] else []) ∧
    (∀ (q : Queue α) (item : α), (put_nowait q item).1 = .ok () →
        (put_nowait q item).2.2
          = if (put_nowait q item).2.1.is_full = true then [Events.Full] else []) ∧
    (∀ (env : Env α) (q : Queue α) (items : List α) (r : Queue α × List Events),
        puts env q items true = some r →
        r.2 = if r.1.is_full = true then [Events.Full] else []) ∧
    (∀ (m : Nat) (env : Env α) (b items : List α) (evs : List Events),
        items.drop (m - b.length) = [] →
        putsIncr m env b items evs = some (dequeExtend (some m) b items, evs)) ∧
    (∀ (m : Nat) (env : Env α) (b items : List α) (evs : List Events)
        (r : List α × List Events),
        putsIncr m env b items evs = some r →
        ∃ k, k ≤ env.length ∧ r.2 = evs ++ List.replicate k Events.Full) := by
  refine ⟨?_, ?_, ?_, ?_, ?_, ?_⟩
  · intro env q item r h
    obtain ⟨mq, bq⟩ := q
    cases mq with
    | none =>
      simp only [putRun] at h
      injection h with h
      rw [← h]
      simp [Queue.is_full]
    | some m =>
      simp only [putRun] at h
      cases hw : putWait m env bq with
      | none => rw [hw] at h; simp at h
      | some b1 =>
        rw [hw, Option.map_some'] at h
        injection h with h
        rw [← h]
        simp [Queue.is_full]
  · intro q item h
    by_cases hf : q.is_full = true
    · rw [putTimeout, if_pos hf] at h
      simp at h
    · rw [putTimeout, if_neg hf]
  · intro q item h
    by_cases hf : q.is_full = true
    · rw [put_nowait, if_pos hf] at h
      simp at h
    · rw [put_nowait, if_neg hf]
  · intro env q items r h
    obtain ⟨mq, bq⟩ := q
    cases mq with
    | none =>
      simp only [puts] at h
      injection h with h
      rw [← h]
      simp [Queue.is_full]
    | some m =>
      simp only [puts, if_pos rfl] at h
      cases hw : putsAtomicWait m items.length env bq with
      | none => rw [hw] at h; simp at h
      | some b1 =>
        rw [hw, Option.map_some'] at h
        injection h with h
        rw [← h]
        simp [Queue.is_full]
  · exact fun m env b items evs h => putsIncr_final_pass env b items evs h
  · exact fun m env b items evs r h => putsIncr_full_events h

/-- Witness for claim C1, amended: a `put` on a one-free-slot bounded queue
completes with the buffer at capacity and dispatches exactly one `Full`. -/
theorem full_event_dispatch_witness :
    ([Events.Full]
        = if (Queue.mk (some 2) [0, 1] : Queue Nat).is_full = true
          then [Events.Full] else [])
      ∧ putRun ([] : Env Nat) ⟨some 2, [0]⟩ 1 = some (⟨some 2, [0, 1]⟩, [Events.Full]) := by
  constructor
  · exact full_event_dispatch_characterization.1 [] ⟨some 2, [0]⟩ 1
      (⟨some 2, [0, 1]⟩, [Events.Full]) rfl
  · rfl

theorem getWait_some_length {env : Env α} {b b1 : List α}
    (h : getWait env b = some b1) : b1.length ≠ 0 := by
  have hp := pollWait_some (fun _ => True)
    (fun e _ c _ => trivial) trivial h
  simpa using hp.2

theorem getsIncrLoop_empty_events {s : Strategy} {al am : Int} :
    ∀ {env : Env α} {b out : List α} {evs : List Events}
      {r : List α × List α × List Events},
      getsIncrLoop s al am env b out evs = some r →
      ∃ k, r.2.2 = evs ++ List.replicate k Events.Empty := by
  intro env
  induction env with
  | nil =>
    intro b out evs r h
    simp only [getsIncrLoop] at h
    by_cases hc : (out.length : Int) < al
    · rw [if_pos hc] at h
      simp at h
    · rw [if_neg hc] at h
      simp at h
  | cons e rest ih =>
    intro b out evs r h
    simp only [getsIncrLoop] at h
    by_cases hc : (out.length : Int) < al
    · rw [if_pos hc] at h
      by_cases hE : (drainLoop s b.length al b out).1.isEmpty = true
      · rw [if_pos hE] at h
        obtain ⟨k, hk⟩ := ih h
        refine ⟨k + 1, ?_⟩
        rw [hk, List.append_assoc]
        simp [List.replicate_succ]
      · rw [if_neg hE] at h
        exact ih h
    · rw [if_neg hc] at h
      by_cases hE : (drainLoop s (e b).length am (e b) out).1.isEmpty = true
      · rw [if_pos hE] at h
        injection h with h
        rw [← h]
        exact ⟨1, rfl⟩
      · rw [if_neg hE] at h
        injection h with h
        rw [← h]
        exact ⟨0, by simp⟩

/-- Claim C2, amended: `get` (with or without a timeout, on success),
`getNoWait` (on success) and atomic `gets` dispatch `Empty` exactly once if
and only if the operation leaves the buffer empty.  Incremental `gets`
instead dispatches `Empty` at the end of every pass at which the buffer is
empty — including waiting passes on an already-empty queue that removed
nothing — and once more after the final top-up when the buffer is then empty,
so a completed call issues some number `k` of `Empty` dispatches that need not
match the number of transitions to size 0. -/
theorem empty_event_dispatch_characterization {α : Type} :
    (∀ (s : Strategy) (env : Env α) (q : Queue α) (x : α)
        (r : Except QErr α × Queue α × List Events),
        getRun s env q = some r → r.1 = .ok x →
        r.2.2 = if r.2.1.buffer.isEmpty = true then [Events.Empty] else []) ∧
    (∀ (s : Strategy) (q : Queue α) (x : α), (getTimeout s q).1 = .ok x →
        (getTimeout s q).2.2
          = if (getTimeout s q).2.1.buffer.isEmpty = true then [Events.Empty] else []) ∧
    (∀ (s : Strategy) (q : Queue α) (x : α), (get_nowait s q).1 = .ok x →
        (get_nowait s q).2.2
          = if (get_nowait s q).2.1.buffer.isEmpty = true then [Events.Empty] else []) ∧
    (∀ (s : Strategy) (env : Env α) (q : Queue α) (al am : Int)
        (r : Except QErr (GetsResult α) × Queue α × List Events),
        1 < al → al ≤ am → gets s env q al (some am) true = some r →
        r.2.2 = if r.2.1.buffer.isEmpty = true then [Events.Empty] else []) ∧
    (∀ (s : Strategy) (env : Env α) (q : Queue α) (al am : Int)
        (r : Except QErr (GetsResult α) × Queue α × List Events),
        1 < al → al ≤ am → gets s env q al (some am) false = some r →
        ∃ k, r.2.2 = List.replicate k Events.Empty) := by
  refine ⟨?_, ?_, ?_, ?_, ?_⟩
  · intro s env q x r h hok
    simp only [getRun] at h
    cases hw : getWait env q.buffer with
    | none => rw [hw] at h; simp at h
    | some b1 =>
      rw [hw, Option.map_some'] at h
      cases hp : popItem s b1 with
      | none =>
        rw [hp] at h
        injection h with h
        rw [← h] at hok
        simp at hok
      | some p =>
        obtain ⟨y, b2⟩ := p
        rw [hp] at h
        injection h with h
        rw [← h]
        have hlen := popItem_length hp
        by_cases h1 : b1.length = 1
        · have hnil : b2 = [] := List.length_eq_zero.mp (by omega)
          simp [h1, hnil]
        · have hne : b2 ≠ [] := by
            intro hh
            rw [hh] at hlen
            simp at hlen
            omega
          simp [h1, hne]
  · intro s q x h
    by_cases he : q.is_empty = true
    · rw [getTimeout, if_pos he] at h
      simp at h
    · rw [getTimeout, if_neg he] at h ⊢
      cases hp : popItem s q.buffer with
      | none => rw [hp] at h; simp at h
      | some p =>
        obtain ⟨y, b2⟩ := p
        have hlen := popItem_length hp
        by_cases h1 : q.buffer.length = 1
        · have hnil : b2 = [] := List.length_eq_zero.mp (by omega)
          simp [h1, hnil]
        · have hne : b2 ≠ [] := by
            intro hh
            rw [hh] at hlen
            simp at hlen
            omega
          simp [h1, hne]
  · intro s q x h
    rw [get_nowait] at h ⊢
    cases hp : popItem s q.buffer with
    | none => rw [hp] at h; simp at h
    | some p =>
      obtain ⟨y, b2⟩ := p
      have hlen := popItem_length hp
      by_cases h1 : q.buffer.length = 1
      · have hnil : b2 = [] := List.length_eq_zero.mp (by omega)
        simp [h1, hnil]
      · have hne : b2 ≠ [] := by
          intro hh
          rw [hh] at hlen
          simp at hlen
          omega
        simp [h1, hne]
  · intro s env q al am r h1 h2 h
    simp only [gets, Option.getD_some] at h
    rw [if_neg (by omega), if_neg (by omega), if_neg (by omega), if_pos trivial] at h
    cases hw : getsAtomicWait al env q.buffer with
    | none => rw [hw] at h; simp at h
    | some b1 =>
      rw [hw, Option.map_some'] at h
      injection h with h
      rw [← h]
  · intro s env q al am r h1 h2 h
    simp only [gets, Option.getD_some] at h
    rw [if_neg (by omega), if_neg (by omega), if_neg (by omega)] at h
    simp only [Bool.false_eq_true, if_false] at h
    cases hl : getsIncrLoop s al am env q.buffer [] [] with
    | none => rw [hl] at h; simp at h
    | some rr =>
      rw [hl, Option.map_some'] at h
      obtain ⟨k, hk⟩ := getsIncrLoop_empty_events hl
      injection h with h
      rw [← h]
      exact ⟨k, by simpa using hk⟩

/-- Witness for claim C2, amended: `get_nowait` on a one-item queue succeeds,
drains the buffer and dispatches `Empty` exactly once. -/
theorem empty_event_dispatch_witness :
    (get_nowait .fifo (⟨none, [7]⟩ : Queue Nat)).1 = .ok 7
      ∧ (get_nowait .fifo (⟨none, [7]⟩ : Queue Nat)).2.2
          = if (get_nowait .fifo (⟨none, [7]⟩ : Queue Nat)).2.1.buffer.isEmpty = true
            then [Events.Empty] else [] := by
  constructor
  · rfl
  · exact empty_event_dispatch_characterization.2.2.1 .fifo ⟨none, [7]⟩ 7 rfl

theorem set_concat_length (l : List β) (a c : β) :
    (l ++ [a]).set l.length c = l ++ [c] := by
  induction l with
  | nil => rfl
  | cons x xs ih => simp [ih]

theorem setResultAll_cancelled_error :
    ∀ (ids : List Nat) (fs : List FutureState), ∀ i ∈ ids,
      fs[i]? = some .cancelled → ∃ fs', setResultAll ids fs = .error fs' := by
  intro ids
  induction ids with
  | nil =>
    intro fs i hi _
    exact absurd hi (List.not_mem_nil i)
  | cons j rest ih =>
    intro fs i hi hfi
    rw [setResultAll]
    cases hj : fs[j]? with
    | none => exact ⟨fs, rfl⟩
    | some st =>
      cases st with
      | pending =>
        have hij : i ≠ j := by
          intro hh
          rw [hh, hj] at hfi
          simp at hfi
        have hi' : i ∈ rest := by
          cases List.mem_cons.mp hi with
          | inl h => exact absurd h hij
          | inr h => exact h
        exact ih (fs.set j .done) i hi'
          (by rw [List.getElem?_set_ne (Ne.symm hij)]; exact hfi)
      | done => exact ⟨fs, rfl⟩
      | cancelled => exact ⟨fs, rfl⟩

theorem dispatch_event_error {b : Broker} {k : Events} {fs' : List FutureState}
    (h : setResultAll (b.listenersOf k) b.futures = .error fs') :
    dispatch_event b k = .error ⟨fs', b.fullListeners, b.emptyListeners⟩ := by
  rw [dispatch_event, h]

/-- Claim C4, amended: when a `wait_for(eventKind, timeout)` call times out,
the wait fails with `asyncio.TimeoutError` and the future is cancelled, but
the waiter is NOT removed from `self._listeners[eventKind]` — the registry
still ends with it — so a later `_dispatch_event` of that kind does act on the
timed-out waiter: its `set_result` call on the cancelled future raises
`InvalidStateError`, the dispatch fails part-way, and the listener list is not
even cleared. -/
theorem timed_out_waiter_stays_and_breaks_dispatch (b : Broker) (k : Events) :
    (timeoutWaiter (wait_for b k).1 (wait_for b k).2).listenersOf k
        = b.listenersOf k ++ [b.futures.length]
      ∧ ∃ bb, dispatch_event (timeoutWaiter (wait_for b k).1 (wait_for b k).2) k
          = .error bb := by
  have hset := set_concat_length b.futures FutureState.pending FutureState.cancelled
  cases k with
  | Full =>
    refine ⟨rfl, ?_⟩
    obtain ⟨fs', hfs⟩ := setResultAll_cancelled_error
      (b.fullListeners ++ [b.futures.length]) (b.futures ++ [FutureState.cancelled])
      b.futures.length (by simp) (List.getElem?_concat_length _ _)
    have hsr : setResultAll
        ((timeoutWaiter (wait_for b Events.Full).1 (wait_for b Events.Full).2).listenersOf
          Events.Full)
        (timeoutWaiter (wait_for b Events.Full).1 (wait_for b Events.Full).2).futures
      = .error fs' := by
      show setResultAll (b.fullListeners ++ [b.futures.length])
          ((b.futures ++ [FutureState.pending]).set b.futures.length .cancelled)
        = .error fs'
      rw [hset]
      exact hfs
    exact ⟨_, dispatch_event_error hsr⟩
  | Empty =>
    refine ⟨rfl, ?_⟩
    obtain ⟨fs', hfs⟩ := setResultAll_cancelled_error
      (b.emptyListeners ++ [b.futures.length]) (b.futures ++ [FutureState.cancelled])
      b.futures.length (by simp) (List.getElem?_concat_length _ _)
    have hsr : setResultAll
        ((timeoutWaiter (wait_for b Events.Empty).1 (wait_for b Events.Empty).2).listenersOf
          Events.Empty)
        (timeoutWaiter (wait_for b Events.Empty).1 (wait_for b Events.Empty).2).futures
      = .error fs' := by
      show setResultAll (b.emptyListeners ++ [b.futures.length])
          ((b.futures ++ [FutureState.pending]).set b.futures.length .cancelled)
        = .error fs'
      rw [hset]
      exact hfs
    exact ⟨_, dispatch_event_error hsr⟩

theorem putsIncr_length_le {m : Nat} : ∀ {env : Env α} {b items : List α}
    {evs : List Events} {r : List α × List Events},
    (∀ e ∈ env, ∀ c : List α, c.length ≤ m → (e c).length ≤ m) →
    b.length ≤ m → putsIncr m env b items evs = some r → r.1.length ≤ m := by
  intro env
  induction env with
  | nil =>
    intro b items evs r hP hb h
    rw [putsIncr] at h
    by_cases hr : (items.drop (m - b.length)).isEmpty = true
    · rw [if_pos hr] at h
      injection h with h
      rw [← h]
      exact dequeExtend_length_le _ hb
    · rw [if_neg hr] at h
      simp at h
  | cons e rest ih =>
    intro b items evs r hP hb h
    rw [putsIncr] at h
    by_cases hr : (items.drop (m - b.length)).isEmpty = true
    · rw [if_pos hr] at h
      injection h with h
      rw [← h]
      exact dequeExtend_length_le _ hb
    · rw [if_neg hr] at h
      exact ih (fun f hf => hP f (List.mem_cons_of_mem e hf))
        (hP e (List.mem_cons_self e rest) _ (dequeExtend_length_le _ hb)) h

theorem getsIncrLoop_length_le {s : Strategy} {al am : Int} {m : Nat} :
    ∀ {env : Env α} {b out : List α} {evs : List Events}
      {r : List α × List α × List Events},
      (∀ e ∈ env, ∀ c : List α, c.length ≤ m → (e c).length ≤ m) →
      b.length ≤ m → getsIncrLoop s al am env b out evs = some r →
      r.2.1.length ≤ m := by
  intro env
  induction env with
  | nil =>
    intro b out evs r hP hb h
    simp only [getsIncrLoop] at h
    by_cases hc : (out.length : Int) < al
    · rw [if_pos hc] at h
      simp at h
    · rw [if_neg hc] at h
      simp at h
  | cons e rest ih =>
    intro b out evs r hP hb h
    simp only [getsIncrLoop] at h
    by_cases hc : (out.length : Int) < al
    · rw [if_pos hc] at h
      refine ih (fun f hf => hP f (List.mem_cons_of_mem e hf)) ?_ h
      exact hP e (List.mem_cons_self e rest) _
        (Nat.le_trans (drainLoop_fst_length_le s al b.length b out) hb)
    · rw [if_neg hc] at h
      injection h with h
      rw [← h]
      exact Nat.le_trans (drainLoop_fst_length_le s am (e b).length (e b) out)
        (hP e (List.mem_cons_self e rest) b hb)

/-- Claim C7: on a bounded queue whose buffer currently respects its capacity
(and whose environment schedule does too, the other tasks going through the
queue's own operations), every completed operation of the put/get family —
`put` with and without a timeout, `put_nowait`, `puts` in both modes, `get`
with and without a timeout, `get_nowait`, `gets`, `clear`, as well as
construction itself — leaves `len(buffer) <= capacity` (the lower bound 0
holds by the type of lengths), with no bulk pass overshooting. -/
theorem bounded_capacity_invariant {α : Type} (m : Nat) (env : Env α) (q : Queue α)
    (hq : q.maxlen = some m) (hb : q.buffer.length ≤ m) (henv : EnvPreserves m env) :
    (∀ (xs : List α) (mi : Int) (mm : Nat), (mkQueue xs (some mi)).maxlen = some mm →
        (mkQueue xs (some mi)).buffer.length ≤ mm) ∧
    (∀ (item : α) (r : Queue α × List Events), putRun env q item = some r →
        r.1.buffer.length ≤ m) ∧
    (∀ item : α, (putTimeout q item).2.1.buffer.length ≤ m) ∧
    (∀ item : α, (put_nowait q item).2.1.buffer.length ≤ m) ∧
    (∀ (items : List α) (atomic : Bool) (r : Queue α × List Events),
        puts env q items atomic = some r → r.1.buffer.length ≤ m) ∧
    (∀ (s : Strategy) (r : Except QErr α × Queue α × List Events),
        getRun s env q = some r → r.2.1.buffer.length ≤ m) ∧
    (∀ s : Strategy, (getTimeout s q).2.1.buffer.length ≤ m) ∧
    (∀ s : Strategy, (get_nowait s q).2.1.buffer.length ≤ m) ∧
    (∀ (s : Strategy) (al : Int) (am? : Option Int) (atomic : Bool)
        (r : Except QErr (GetsResult α) × Queue α × List Events),
        gets s env q al am? atomic = some r → r.2.1.buffer.length ≤ m) ∧
    q.clear.buffer.length ≤ m := by
  obtain ⟨mq, bq⟩ := q
  cases hq
  simp only [Queue.buffer] at hb
  refine ⟨?_, ?_, ?_, ?_, ?_, ?_, ?_, ?_, ?_, ?_⟩
  · intro xs mi mm hmm
    simp only [mkQueue, initMaxlen] at hmm ⊢
    by_cases hneg : mi < 0
    · rw [if_pos hneg] at hmm
      simp at hmm
    · rw [if_neg hneg] at hmm ⊢
      injection hmm with hmm
      simp only [dequeInit, List.length_drop]
      omega
  · intro item r h
    simp only [putRun] at h
    cases hw : putWait m env bq with
    | none => rw [hw] at h; simp at h
    | some b1 =>
      rw [hw, Option.map_some'] at h
      injection h with h
      rw [← h]
      exact dequeAppend_length_le m b1 item
  · intro item
    by_cases hf : (Queue.mk (some m) bq).is_full = true
    · rw [putTimeout, if_pos hf]
      exact hb
    · rw [putTimeout, if_neg hf]
      exact dequeAppend_length_le m bq item
  · intro item
    by_cases hf : (Queue.mk (some m) bq).is_full = true
    · rw [put_nowait, if_pos hf]
      exact hb
    · rw [put_nowait, if_neg hf]
      exact dequeAppend_length_le m bq item
  · intro items atomic r h
    simp only [puts] at h
    cases atomic with
    | true =>
      rw [if_pos rfl] at h
      cases hw : putsAtomicWait m items.length env bq with
      | none => rw [hw] at h; simp at h
      | some b1 =>
        rw [hw, Option.map_some'] at h
        injection h with h
        rw [← h]
        have hb1 : b1.length ≤ m :=
          (pollWait_some (fun c => c.length ≤ m) henv hb hw).1
        exact dequeExtend_length_le items hb1
    | false =>
      simp only [Bool.false_eq_true, if_false] at h
      cases hl : putsIncr m env bq items [] with
      | none => rw [hl] at h; simp at h
      | some rr =>
        rw [hl, Option.map_some'] at h
        injection h with h
        rw [← h]
        exact putsIncr_length_le henv hb hl
  · intro s r h
    simp only [getRun] at h
    cases hw : getWait env bq with
    | none => rw [hw] at h; simp at h
    | some b1 =>
      rw [hw, Option.map_some'] at h
      have hb1 : b1.length ≤ m :=
        (pollWait_some (fun c => c.length ≤ m) henv hb hw).1
      cases hp : popItem s b1 with
      | none =>
        rw [hp] at h
        injection h with h
        rw [← h]
        exact hb1
      | some p =>
        obtain ⟨y, b2⟩ := p
        rw [hp] at h
        injection h with h
        rw [← h]
        have := popItem_length hp
        simp only [Queue.buffer]
        omega
  · intro s
    by_cases he : (Queue.mk (some m) bq).is_empty = true
    · rw [getTimeout, if_pos he]
      exact hb
    · rw [getTimeout, if_neg he]
      cases hp : popItem s bq with
      | none => exact hb
      | some p =>
        obtain ⟨y, b2⟩ := p
        have := popItem_length hp
        simp only [Queue.buffer]
        omega
  · intro s
    rw [get_nowait]
    cases hp : popItem s bq with
    | none => exact hb
    | some p =>
      obtain ⟨y, b2⟩ := p
      have := popItem_length hp
      simp only [Queue.buffer]
      omega
  · intro s al am? atomic r h
    simp only [gets] at h
    by_cases h1 : al < 1
    · rw [if_pos h1] at h
      injection h with h
      rw [← h]
      exact hb
    · rw [if_neg h1] at h
      by_cases h2 : am?.getD al < al
      · rw [if_pos h2] at h
        injection h with h
        rw [← h]
        exact hb
      · rw [if_neg h2] at h
        by_cases h3 : al = 1
        · rw [if_pos h3] at h
          simp only [getRun] at h
          cases hw : getWait env bq with
          | none => rw [hw] at h; simp at h
          | some b1 =>
            rw [hw, Option.map_some', Option.map_some'] at h
            have hb1 : b1.length ≤ m :=
              (pollWait_some (fun c => c.length ≤ m) henv hb hw).1
            cases hp : popItem s b1 with
            | none =>
              rw [hp] at h
              injection h with h
              rw [← h]
              exact hb1
            | some p =>
              obtain ⟨y, b2⟩ := p
              rw [hp] at h
              injection h with h
              rw [← h]
              have := popItem_length hp
              simp only [Queue.buffer]
              omega
        · rw [if_neg h3] at h
          cases atomic with
          | true =>
            rw [if_pos rfl] at h
            cases hw : getsAtomicWait al env bq with
            | none => rw [hw] at h; simp at h
            | some b1 =>
              rw [hw, Option.map_some'] at h
              injection h with h
              rw [← h]
              have hb1 : b1.length ≤ m :=
                (pollWait_some (fun c => c.length ≤ m) henv hb hw).1
              exact Nat.le_trans (drainLoop_fst_length_le s (am?.getD al) b1.length b1 []) hb1
          | false =>
            simp only [Bool.false_eq_true, if_false] at h
            cases hl : getsIncrLoop s al (am?.getD al) env bq [] [] with
            | none => rw [hl] at h; simp at h
            | some rr =>
              rw [hl, Option.map_some'] at h
              injection h with h
              rw [← h]
              exact getsIncrLoop_length_le henv hb hl
  · exact Nat.zero_le m

/-- Witness for claim C7: with capacity 2, buffer `[0]` and an empty schedule,
`put_nowait 5` keeps the buffer within capacity. -/
theorem bounded_capacity_invariant_witness :
    (put_nowait (⟨some 2, [0]⟩ : Queue Nat) 5).2.1.buffer.length ≤ 2 := by
  have h := bounded_capacity_invariant 2 ([] : Env Nat) ⟨some 2, [0]⟩ rfl
    (by decide) (fun e he => absurd he (List.not_mem_nil e))
  exact h.2.2.2.1 5

end AsyncQueue
